import Mathlib

/-!
Shallow embedding of the snippet store (`store.go`) and the read counter
(`counter.go`) of the `pb` repository.

Modelling choices:
* Go maps (`map[string]string`, `map[string]int`) become association lists
  looked up by first matching key; Go map iteration in the dedup scan of
  `createSnippet` becomes a list-order scan (a deterministic refinement of
  Go's unspecified iteration order).
* The SHA-256 content hash is abstracted as a function argument
  `hash : String → String`; the claims that need it assume injectivity
  explicitly, as the spec does.
* The file system holding one content file per id is modelled as an
  association list `files : id → bytes` inside the state.  `saveToFile` on
  the three relation files panics (aborts the process) on error in the
  source, so relation persistence has no failure branch in the model; the
  content-file write in `updateSnippet` returns an error that the source
  handles, so it is modelled by an explicit `writeOk : Bool` argument.
* `rand.Perm n` in `generateID` is abstracted as a function
  `perm : Nat → List Nat` giving the candidate order per id length, with
  the hypothesis that `perm L` is a permutation of `range (62 ^ L)`.
-/

namespace PB

/-- Association-list lookup, modelling a Go map read `m[k]` (comma-ok form:
`none` when the key is absent). -/
def lookupA {α : Type} : List (String × α) → String → Option α
  | [], _ => none
  | (k₀, v) :: rest, k => if k₀ = k then some v else lookupA rest k

/-- Association-list insert, modelling a Go map write `m[k] = v`. -/
def insertA {α : Type} : List (String × α) → String → α → List (String × α)
  | [], k, v => [(k, v)]
  | (k₀, v₀) :: rest, k, v =>
      if k₀ = k then (k, v) :: rest else (k₀, v₀) :: insertA rest k v

/-- Association-list erase, modelling Go `delete(m, k)`. -/
def eraseA {α : Type} : List (String × α) → String → List (String × α)
  | [], _ => []
  | (k₀, v₀) :: rest, k =>
      if k₀ = k then eraseA rest k else (k₀, v₀) :: eraseA rest k

theorem lookupA_insertA_self {α : Type} (m : List (String × α)) (k : String) (v : α) :
    lookupA (insertA m k v) k = some v := by
  induction m with
  | nil => simp [insertA, lookupA]
  | cons p rest ih =>
      obtain ⟨k₀, v₀⟩ := p
      by_cases h : k₀ = k <;> simp [insertA, lookupA, h, ih]

theorem lookupA_insertA_ne {α : Type} (m : List (String × α)) (k q : String) (v : α)
    (h : q ≠ k) : lookupA (insertA m k v) q = lookupA m q := by
  induction m with
  | nil => simp [insertA, lookupA, Ne.symm h]
  | cons p rest ih =>
      obtain ⟨k₀, v₀⟩ := p
      by_cases hk : k₀ = k
      · subst hk
        simp [insertA, lookupA, Ne.symm h]
      · simp [insertA, lookupA, hk, ih]

theorem lookupA_eraseA {α : Type} (m : List (String × α)) (k q : String) :
    lookupA (eraseA m k) q = if q = k then none else lookupA m q := by
  induction m with
  | nil => simp [eraseA, lookupA]
  | cons p rest ih =>
      obtain ⟨k₀, v₀⟩ := p
      by_cases hk : k₀ = k
      · subst hk
        rw [show eraseA ((k₀, v₀) :: rest) k₀ = eraseA rest k₀ from by simp [eraseA]]
        rw [ih]
        by_cases hq : q = k₀
        · simp [hq]
        · simp [lookupA, hq, Ne.symm hq]
      · by_cases hq : k₀ = q
        · subst hq
          have hqk : ¬k₀ = k := hk
          simp [eraseA, lookupA, hk, ih, hqk]
        · simp [eraseA, lookupA, hk, hq, ih]

theorem insertA_of_lookupA_none {α : Type} (m : List (String × α)) (k : String) (v : α)
    (h : lookupA m k = none) : insertA m k v = m ++ [(k, v)] := by
  induction m with
  | nil => simp [insertA]
  | cons p rest ih =>
      obtain ⟨k₀, v₀⟩ := p
      by_cases hk : k₀ = k
      · simp [lookupA, hk] at h
      · simp [lookupA, hk] at h
        simp [insertA, hk, ih h]

theorem lookupA_isSome_iff_mem_keys {α : Type} (m : List (String × α)) (k : String) :
    (lookupA m k).isSome ↔ k ∈ m.map Prod.fst := by
  induction m with
  | nil => simp [lookupA]
  | cons p rest ih =>
      obtain ⟨k₀, v₀⟩ := p
      by_cases hk : k₀ = k <;> simp [lookupA, hk, ih]
      exact fun h => absurd h.symm hk

/-! ## Read counter (`counter.go`) -/

/-- In-memory per-id read counts and expiry thresholds (`ReadCounter`). -/
structure ReadCounter where
  counts : List (String × Int)
  maxReads : List (String × Int)
  deriving DecidableEq, Repr

/-- `newReadCounter`: both maps start empty. -/
def newReadCounter : ReadCounter := ⟨[], []⟩

/-- `setMaxReads`: records (or overwrites) the self-destruct threshold. -/
def setMaxReads (rc : ReadCounter) (id : String) (max : Int) : ReadCounter :=
  ⟨rc.counts, insertA rc.maxReads id max⟩

/-- `incrementAndCheck`: increment the observed-read count for `id`; when a
threshold exists and the new count has reached it, clear both entries and
report `true`, else report `false`. -/
def incrementAndCheck (rc : ReadCounter) (id : String) : Bool × ReadCounter :=
  let newCounts := insertA rc.counts id ((lookupA rc.counts id).getD 0 + 1)
  match lookupA rc.maxReads id with
  | some m =>
      if (lookupA newCounts id).getD 0 ≥ m then
        (true, ⟨eraseA newCounts id, eraseA rc.maxReads id⟩)
      else
        (false, ⟨newCounts, rc.maxReads⟩)
  | none => (false, ⟨newCounts, rc.maxReads⟩)

/-- C5: `incrementAndCheck` returns `true` exactly when a threshold was
configured and the incremented count reaches it, in which case it clears
both entries; otherwise it returns `false` and only records the increment.
After `setMaxReads id 2`, successive calls yield `false`, `true`, `false`. -/
theorem C5_incrementAndCheck_expiry (rc : ReadCounter) (id : String) :
    ((incrementAndCheck rc id).1 = true ↔
      ∃ m, lookupA rc.maxReads id = some m ∧ m ≤ (lookupA rc.counts id).getD 0 + 1) ∧
    (incrementAndCheck rc id).2 =
      (if (incrementAndCheck rc id).1 then
        ⟨eraseA (insertA rc.counts id ((lookupA rc.counts id).getD 0 + 1)) id,
         eraseA rc.maxReads id⟩
       else ⟨insertA rc.counts id ((lookupA rc.counts id).getD 0 + 1), rc.maxReads⟩) ∧
    ((incrementAndCheck (setMaxReads newReadCounter "x" 2) "x").1 = false ∧
     (incrementAndCheck (incrementAndCheck (setMaxReads newReadCounter "x" 2) "x").2 "x").1
        = true ∧
     (incrementAndCheck
        (incrementAndCheck
          (incrementAndCheck (setMaxReads newReadCounter "x" 2) "x").2 "x").2 "x").1
        = false) := by
  refine ⟨?_, ?_, by decide⟩
  · cases h : lookupA rc.maxReads id with
    | none => simp [incrementAndCheck, h]
    | some m =>
        simp only [incrementAndCheck, h, lookupA_insertA_self, Option.getD_some]
        by_cases hge : (lookupA rc.counts id).getD 0 + 1 ≥ m
        · simp [hge]
        · simp [hge]
  · cases h : lookupA rc.maxReads id with
    | none => simp [incrementAndCheck, h]
    | some m =>
        simp only [incrementAndCheck, h, lookupA_insertA_self, Option.getD_some]
        by_cases hge : (lookupA rc.counts id).getD 0 + 1 ≥ m <;> simp [hge]

/-! ## ID generation (`generateID`, `baseN`, `intPow` in `store.go`) -/

/-- The 62-symbol id alphabet (`idChars`). -/
def idChars : String := "abcdefghijklmnopqrstuvwxyzABCDEFGHIJKLMNOPQRSTUVWXYZ0123456789"

/-- `intPow base exp`: iterated product, as in the source loop. -/
def intPow (base : Nat) : Nat → Nat
  | 0 => 1
  | e + 1 => intPow base e * base

/-- The character list built by the `baseN` loop: digits of `num` in base
`cs.length`, most significant first, padded to the requested length. -/
def baseNChars (cs : List Char) : Nat → Nat → List Char
  | _, 0 => []
  | num, l + 1 =>
      baseNChars cs (num / cs.length) l ++ [cs.getD (num % cs.length) 'a']

/-- `baseN num chars length`: fixed-length base-`chars.length` encoding;
errors (`none`) when `num` does not fit, as in the source. -/
def baseN (num : Nat) (chars : String) (length : Nat) : Option String :=
  if num > intPow chars.length length - 1 then none
  else some (String.mk (baseNChars chars.toList num length))

/-- The inner candidate loop of `generateID`: try each index in order,
skipping `baseN` errors (logged and skipped in the source) and occupied ids. -/
def tryIndices (index : List (String × String)) (chars : String) (length : Nat) :
    List Nat → Option String
  | [] => none
  | n :: rest =>
      match baseN n chars length with
      | none => tryIndices index chars length rest
      | some id =>
          if (lookupA index id).isSome then tryIndices index chars length rest
          else some id

/-- The outer loop of `generateID`, starting at the given length; the source
loops without bound, the model carries fuel (`generateID` supplies enough for
any finite index, see the pigeonhole argument in `generateID_spec`). -/
def generateIDAux (perm : Nat → List Nat) (index : List (String × String)) :
    Nat → Nat → Option String
  | _, 0 => none
  | length, fuel + 1 =>
      match tryIndices index idChars length (perm length) with
      | some id => some id
      | none => generateIDAux perm index (length + 1) fuel

/-- `generateID`: search lengths 1, 2, … for a free id; `perm length` stands
for `rand.Perm (intPow 62 length)`. -/
def generateID (perm : Nat → List Nat) (index : List (String × String)) : Option String :=
  generateIDAux perm index 1 (index.length + 1)

/-- The `rand.Perm` guarantee: each `perm L` is a permutation of
`0, …, 62^L - 1`. -/
def PermOK (perm : Nat → List Nat) : Prop :=
  ∀ L, (perm L).Perm (List.range (intPow 62 L))

/-- Identity candidate order, a concrete `PermOK` instance. -/
def rangePerm : Nat → List Nat := fun L => List.range (intPow 62 L)

/-! ### Correctness of the base-62 encoding -/

/-- Position of a character in an alphabet (first occurrence). -/
def charIdx : List Char → Char → Nat
  | [], _ => 0
  | c₀ :: rest, c => if c₀ = c then 0 else charIdx rest c + 1

theorem charIdx_lt_length {cs : List Char} {c : Char} (h : c ∈ cs) :
    charIdx cs c < cs.length := by
  induction cs with
  | nil => simp at h
  | cons c₀ rest ih =>
      by_cases hc : c₀ = c
      · simp [charIdx, hc]
      · have hm : c ∈ rest := by
          rcases List.mem_cons.mp h with h | h
          · exact absurd h.symm hc
          · exact h
        simp only [charIdx, if_neg hc, List.length_cons]
        exact Nat.succ_lt_succ (ih hm)

theorem getD_mem {cs : List Char} {i : Nat} (hi : i < cs.length) (d : Char) :
    cs.getD i d ∈ cs := by
  induction cs generalizing i with
  | nil => simp at hi
  | cons c₀ rest ih =>
      cases i with
      | zero =>
          rw [List.getD_cons_zero]
          exact List.mem_cons_self _ _
      | succ j =>
          have hj : j < rest.length := by simpa using hi
          rw [List.getD_cons_succ]
          exact List.mem_cons_of_mem _ (ih hj)

theorem getD_charIdx {cs : List Char} {c : Char} (h : c ∈ cs) (d : Char) :
    cs.getD (charIdx cs c) d = c := by
  induction cs with
  | nil => simp at h
  | cons c₀ rest ih =>
      by_cases hc : c₀ = c
      · rw [show charIdx (c₀ :: rest) c = 0 from by simp [charIdx, hc],
          List.getD_cons_zero]
        exact hc
      · have hm : c ∈ rest := by
          rcases List.mem_cons.mp h with h | h
          · exact absurd h.symm hc
          · exact h
        rw [show charIdx (c₀ :: rest) c = charIdx rest c + 1 from by simp [charIdx, hc],
          List.getD_cons_succ]
        exact ih hm

theorem charIdx_getD {cs : List Char} (hnd : cs.Nodup) :
    ∀ {i : Nat}, i < cs.length → ∀ d, charIdx cs (cs.getD i d) = i := by
  induction cs with
  | nil => intro i hi; simp at hi
  | cons c₀ rest ih =>
      intro i hi d
      cases i with
      | zero =>
          rw [List.getD_cons_zero]
          simp [charIdx]
      | succ j =>
          have hj : j < rest.length := by simpa using hi
          have hne : ¬c₀ = rest.getD j d := by
            intro he
            exact (List.nodup_cons.mp hnd).1 (he ▸ getD_mem hj d)
          rw [List.getD_cons_succ,
            show charIdx (c₀ :: rest) (rest.getD j d)
                = if c₀ = rest.getD j d then 0 else charIdx rest (rest.getD j d) + 1
              from rfl,
            if_neg hne, ih (List.nodup_cons.mp hnd).2 hj d]

/-- Value of a digit string, most significant first (left inverse of
`baseNChars`). -/
def strVal (cs : List Char) (ds : List Char) : Nat :=
  ds.foldl (fun a c => a * cs.length + charIdx cs c) 0

theorem strVal_append (cs ds : List Char) (c : Char) :
    strVal cs (ds ++ [c]) = strVal cs ds * cs.length + charIdx cs c := by
  simp [strVal, List.foldl_append]

theorem baseNChars_length (cs : List Char) :
    ∀ l num, (baseNChars cs num l).length = l := by
  intro l
  induction l with
  | zero => intro num; simp [baseNChars]
  | succ l ih => intro num; simp [baseNChars, ih]

theorem baseNChars_mem (cs : List Char) (hcs : cs ≠ []) :
    ∀ l num c, c ∈ baseNChars cs num l → c ∈ cs := by
  intro l
  induction l with
  | zero => intro num c hc; simp [baseNChars] at hc
  | succ l ih =>
      intro num c hc
      simp only [baseNChars, List.mem_append, List.mem_singleton] at hc
      rcases hc with hc | hc
      · exact ih _ c hc
      · subst hc
        exact getD_mem (Nat.mod_lt _ (List.length_pos.mpr hcs)) 'a'

theorem strVal_baseNChars (cs : List Char) (hnd : cs.Nodup) (hcs : cs ≠ []) :
    ∀ l num, num < cs.length ^ l → strVal cs (baseNChars cs num l) = num := by
  intro l
  induction l with
  | zero =>
      intro num h
      rw [pow_zero] at h
      have hnum : num = 0 := by omega
      subst hnum
      rfl
  | succ l ih =>
      intro num h
      have hpos : 0 < cs.length := List.length_pos.mpr hcs
      have hdiv : num / cs.length < cs.length ^ l := by
        rw [Nat.div_lt_iff_lt_mul hpos]
        calc num < cs.length ^ (l + 1) := h
          _ = cs.length ^ l * cs.length := pow_succ _ _
      rw [show baseNChars cs num (l + 1)
            = baseNChars cs (num / cs.length) l ++ [cs.getD (num % cs.length) 'a']
          from rfl]
      rw [strVal_append, ih _ hdiv, charIdx_getD hnd (Nat.mod_lt _ hpos)]
      have h1 := Nat.div_add_mod num cs.length
      have h2 : num / cs.length * cs.length = cs.length * (num / cs.length) :=
        Nat.mul_comm _ _
      omega

theorem strVal_lt (cs : List Char) (_hcs : cs ≠ []) (ds : List Char)
    (hmem : ∀ c ∈ ds, c ∈ cs) : strVal cs ds < cs.length ^ ds.length := by
  induction ds using List.reverseRecOn with
  | nil => simp [strVal]
  | append_singleton ds c ih =>
      have h1 : strVal cs ds < cs.length ^ ds.length :=
        ih fun x hx => hmem x (List.mem_append_left _ hx)
      have h2 : charIdx cs c < cs.length :=
        charIdx_lt_length (hmem c (List.mem_append_right _ (List.mem_singleton_self c)))
      rw [strVal_append]
      have h3 : (strVal cs ds + 1) * cs.length ≤ cs.length ^ ds.length * cs.length :=
        Nat.mul_le_mul_right _ h1
      have h4 : (strVal cs ds + 1) * cs.length = strVal cs ds * cs.length + cs.length :=
        Nat.succ_mul _ _
      have h5 : cs.length ^ (ds ++ [c]).length = cs.length ^ ds.length * cs.length := by
        simp [pow_succ]
      omega

theorem baseNChars_strVal (cs : List Char) (hcs : cs ≠ []) :
    ∀ ds, (∀ c ∈ ds, c ∈ cs) → baseNChars cs (strVal cs ds) ds.length = ds := by
  intro ds
  induction ds using List.reverseRecOn with
  | nil => intro _; rfl
  | append_singleton ds c ih =>
      intro hmem
      have hpos : 0 < cs.length := List.length_pos.mpr hcs
      have hc : c ∈ cs := hmem c (List.mem_append_right _ (List.mem_singleton_self c))
      have hidx : charIdx cs c < cs.length := charIdx_lt_length hc
      have hlen : (ds ++ [c]).length = ds.length + 1 := by simp
      rw [strVal_append, hlen]
      rw [show baseNChars cs (strVal cs ds * cs.length + charIdx cs c) (ds.length + 1)
            = baseNChars cs ((strVal cs ds * cs.length + charIdx cs c) / cs.length) ds.length
              ++ [cs.getD ((strVal cs ds * cs.length + charIdx cs c) % cs.length) 'a']
          from rfl]
      have hdiv : (strVal cs ds * cs.length + charIdx cs c) / cs.length = strVal cs ds := by
        rw [Nat.mul_comm (strVal cs ds) cs.length, Nat.mul_add_div hpos,
          Nat.div_eq_of_lt hidx]
        omega
      have hmod : (strVal cs ds * cs.length + charIdx cs c) % cs.length = charIdx cs c := by
        rw [Nat.mul_comm (strVal cs ds) cs.length, Nat.mul_add_mod,
          Nat.mod_eq_of_lt hidx]
      rw [hdiv, hmod, getD_charIdx hc, ih fun x hx => hmem x (List.mem_append_left _ hx)]

theorem intPow_eq_pow (base : Nat) : ∀ e, intPow base e = base ^ e := by
  intro e
  induction e with
  | zero => rfl
  | succ e ih => rw [show intPow base (e + 1) = intPow base e * base from rfl, ih, pow_succ]

/-! ### Facts about the alphabet and the generator loops -/

theorem idChars_toList_length : idChars.toList.length = 62 := by decide

theorem idChars_nodup : idChars.toList.Nodup := by decide

theorem idChars_ne_nil : idChars.toList ≠ [] := by decide

theorem string_mk_toList (s : String) : String.mk s.toList = s := by
  cases s
  rfl

/-- Well-formed ids of a given length: strings over the 62-symbol alphabet. -/
def isAlphaID (s : String) (L : Nat) : Prop :=
  s.length = L ∧ ∀ c ∈ s.toList, c ∈ idChars.toList

instance (s : String) (L : Nat) : Decidable (isAlphaID s L) := by
  unfold isAlphaID
  infer_instance

theorem baseN_eq_some_of_lt {num L : Nat} (h : num < intPow idChars.length L) :
    baseN num idChars L = some (String.mk (baseNChars idChars.toList num L)) := by
  have hnot : ¬num > intPow idChars.length L - 1 := by omega
  unfold baseN
  rw [if_neg hnot]

theorem baseN_some_inv {num L : Nat} {chars id : String}
    (h : baseN num chars L = some id) :
    id = String.mk (baseNChars chars.toList num L) := by
  unfold baseN at h
  split at h
  · exact absurd h (by simp)
  · exact (Option.some.injEq .. ▸ h).symm

theorem tryIndices_some {index : List (String × String)} {chars : String} {L : Nat} :
    ∀ {cands : List Nat} {id : String}, tryIndices index chars L cands = some id →
      lookupA index id = none ∧ ∃ n ∈ cands, baseN n chars L = some id := by
  intro cands
  induction cands with
  | nil => intro id h; simp [tryIndices] at h
  | cons n rest ih =>
      intro id h
      cases hb : baseN n chars L with
      | none =>
          simp only [tryIndices, hb] at h
          obtain ⟨h1, n₀, hn₀, hb₀⟩ := ih h
          exact ⟨h1, n₀, List.mem_cons_of_mem _ hn₀, hb₀⟩
      | some id₀ =>
          cases hocc : (lookupA index id₀).isSome with
          | true =>
              simp only [tryIndices, hb, hocc, if_true] at h
              obtain ⟨h1, n₀, hn₀, hb₀⟩ := ih h
              exact ⟨h1, n₀, List.mem_cons_of_mem _ hn₀, hb₀⟩
          | false =>
              simp only [tryIndices, hb, hocc, Bool.false_eq_true, if_false,
                Option.some.injEq] at h
              subst h
              exact ⟨Option.not_isSome_iff_eq_none.mp (by simp [hocc]), n,
                List.mem_cons_self n rest, hb⟩

theorem tryIndices_none {index : List (String × String)} {chars : String} {L : Nat} :
    ∀ {cands : List Nat}, tryIndices index chars L cands = none →
      ∀ n ∈ cands, ∀ id, baseN n chars L = some id → (lookupA index id).isSome := by
  intro cands
  induction cands with
  | nil => intro _ n hn; simp at hn
  | cons n rest ih =>
      intro h m hm id hb
      rcases List.mem_cons.mp hm with rfl | hm'
      · cases hocc : (lookupA index id).isSome with
        | true => rfl
        | false =>
            simp only [tryIndices, hb, hocc, Bool.false_eq_true, if_false] at h
            exact absurd h (by simp)
      · cases hb₀ : baseN n chars L with
        | none =>
            simp only [tryIndices, hb₀] at h
            exact ih h m hm' id hb
        | some id₀ =>
            cases hocc : (lookupA index id₀).isSome with
            | true =>
                simp only [tryIndices, hb₀, hocc, if_true] at h
                exact ih h m hm' id hb
            | false =>
                simp only [tryIndices, hb₀, hocc, Bool.false_eq_true, if_false] at h
                exact absurd h (by simp)

theorem tryIndices_some_isAlpha {index : List (String × String)} {L : Nat}
    {cands : List Nat} {id : String} (h : tryIndices index idChars L cands = some id) :
    lookupA index id = none ∧ isAlphaID id L := by
  obtain ⟨hfree, n, _, hb⟩ := tryIndices_some h
  obtain rfl : id = String.mk (baseNChars idChars.toList n L) := baseN_some_inv hb
  refine ⟨hfree, ?_, ?_⟩
  · show (baseNChars idChars.toList n L).length = L
    exact baseNChars_length _ _ _
  · intro c hc
    exact baseNChars_mem _ idChars_ne_nil _ _ c hc

theorem tryIndices_none_all_occupied {index : List (String × String)} {L : Nat}
    {cands : List Nat} (hcands : cands.Perm (List.range (intPow 62 L)))
    (h : tryIndices index idChars L cands = none) :
    ∀ s : String, isAlphaID s L → (lookupA index s).isSome := by
  rintro s ⟨hlen, hmem⟩
  have hlen' : s.toList.length = L := hlen
  have hval_lt : strVal idChars.toList s.toList < 62 ^ L := by
    have := strVal_lt idChars.toList idChars_ne_nil s.toList hmem
    rwa [idChars_toList_length, hlen'] at this
  have hv_mem : strVal idChars.toList s.toList ∈ cands := by
    rw [hcands.mem_iff, List.mem_range, intPow_eq_pow]
    exact hval_lt
  have henc : baseN (strVal idChars.toList s.toList) idChars L = some s := by
    rw [baseN_eq_some_of_lt]
    · congr 1
      conv_rhs => rw [← string_mk_toList s]
      congr 1
      rw [← hlen']
      exact baseNChars_strVal idChars.toList idChars_ne_nil s.toList hmem
    · rw [intPow_eq_pow]
      have : idChars.length = idChars.toList.length := rfl
      rw [this, idChars_toList_length]
      exact hval_lt
  exact tryIndices_none h _ hv_mem s henc

theorem generateIDAux_fresh {perm : Nat → List Nat} {index : List (String × String)} :
    ∀ {fuel start : Nat} {id : String}, generateIDAux perm index start fuel = some id →
      lookupA index id = none := by
  intro fuel
  induction fuel with
  | zero => intro start id h; simp [generateIDAux] at h
  | succ f ih =>
      intro start id h
      cases htry : tryIndices index idChars start (perm start) with
      | some id₀ =>
          simp only [generateIDAux, htry, Option.some.injEq] at h
          subst h
          exact (tryIndices_some htry).1
      | none =>
          simp only [generateIDAux, htry] at h
          exact ih h

/-- `generateID` only returns ids absent from the index (the `allocate`
contract), with no assumption on the candidate order. -/
theorem generateID_fresh {perm : Nat → List Nat} {index : List (String × String)}
    {id : String} (h : generateID perm index = some id) : lookupA index id = none :=
  generateIDAux_fresh h

theorem generateIDAux_spec (perm : Nat → List Nat) (hperm : PermOK perm)
    (index : List (String × String)) :
    ∀ fuel start, 1 ≤ start →
      (∃ L s, start ≤ L ∧ L < start + fuel ∧ isAlphaID s L ∧ lookupA index s = none) →
      ∃ id L, generateIDAux perm index start fuel = some id ∧ start ≤ L ∧
        lookupA index id = none ∧ isAlphaID id L ∧
        ∀ M, start ≤ M → M < L → ∀ s, isAlphaID s M → (lookupA index s).isSome := by
  intro fuel
  induction fuel with
  | zero =>
      rintro start _ ⟨L, s, h1, h2, -, -⟩
      omega
  | succ f ih =>
      rintro start hstart ⟨L, s, hL1, hL2, hs, hfree⟩
      cases htry : tryIndices index idChars start (perm start) with
      | some id =>
          obtain ⟨hfree', halpha⟩ := tryIndices_some_isAlpha htry
          refine ⟨id, start, ?_, Nat.le_refl _, hfree', halpha, ?_⟩
          · simp only [generateIDAux, htry]
          · intro M hM1 hM2
            omega
      | none =>
          have hall := tryIndices_none_all_occupied (hperm start) htry
          have hLne : L ≠ start := by
            intro he
            subst he
            have := hall s hs
            rw [hfree] at this
            simp at this
          obtain ⟨id, L', hgen, hge, hfree', halpha', hmin⟩ :=
            ih (start + 1) (by omega) ⟨L, s, by omega, by omega, hs, hfree⟩
          refine ⟨id, L', ?_, by omega, hfree', halpha', ?_⟩
          · simp only [generateIDAux, htry, hgen]
          · intro M hM1 hM2 t ht
            by_cases hM : M = start
            · subst hM
              exact hall t ht
            · exact hmin M (by omega) hM2 t ht

/-- Pigeonhole: for a finite index some id of length at most
`index.length + 1` is always free. -/
theorem exists_free_id (index : List (String × String)) :
    ∃ L s, 1 ≤ L ∧ L < 1 + (index.length + 1) ∧ isAlphaID s L ∧
      lookupA index s = none := by
  by_contra hcon
  push_neg at hcon
  set L := index.length + 1 with hLdef
  have hsub : ((List.range (intPow 62 L)).map
        (fun n => String.mk (baseNChars idChars.toList n L))) ⊆ index.map Prod.fst := by
    intro t ht
    obtain ⟨n, hn, rfl⟩ := List.mem_map.mp ht
    have halpha : isAlphaID (String.mk (baseNChars idChars.toList n L)) L := by
      refine ⟨?_, ?_⟩
      · show (baseNChars idChars.toList n L).length = L
        exact baseNChars_length _ _ _
      · intro c hc
        exact baseNChars_mem _ idChars_ne_nil _ _ c hc
    have hne := hcon L _ (by omega) (by omega) halpha
    rw [← lookupA_isSome_iff_mem_keys]
    exact Option.ne_none_iff_isSome.mp hne
  have hnd : ((List.range (intPow 62 L)).map
        (fun n => String.mk (baseNChars idChars.toList n L))).Nodup := by
    refine List.Nodup.map_on ?_ (List.nodup_range _)
    intro x hx y hy hxy
    rw [List.mem_range, intPow_eq_pow] at hx hy
    have hx' : strVal idChars.toList (baseNChars idChars.toList x L) = x := by
      apply strVal_baseNChars idChars.toList idChars_nodup idChars_ne_nil
      rwa [idChars_toList_length]
    have hy' : strVal idChars.toList (baseNChars idChars.toList y L) = y := by
      apply strVal_baseNChars idChars.toList idChars_nodup idChars_ne_nil
      rwa [idChars_toList_length]
    have : baseNChars idChars.toList x L = baseNChars idChars.toList y L := by
      have := congrArg String.toList hxy
      simpa using this
    rw [← hx', ← hy', this]
  have hle := (List.subperm_of_subset hnd hsub).length_le
  rw [List.length_map, List.length_map, List.length_range] at hle
  have h62 : intPow 62 L = 62 ^ L := intPow_eq_pow _ _
  have hp1 : index.length < 62 ^ L := by
    rw [hLdef]
    calc index.length < 62 ^ index.length := Nat.lt_pow_self (by omega) _
      _ ≤ 62 ^ (index.length + 1) := Nat.pow_le_pow_right (by omega) (Nat.le_succ _)
  omega

/-- The full `allocate` contract: under the `rand.Perm` guarantee,
`generateID` returns a free id of the smallest length (≥ 1) at which some
free id exists. -/
theorem generateID_spec (perm : Nat → List Nat) (hperm : PermOK perm)
    (index : List (String × String)) :
    ∃ id L, generateID perm index = some id ∧ 1 ≤ L ∧ lookupA index id = none ∧
      isAlphaID id L ∧
      ∀ M, 1 ≤ M → M < L → ∀ s, isAlphaID s M → (lookupA index s).isSome := by
  obtain ⟨L, s, h1, h2, h3, h4⟩ := exists_free_id index
  obtain ⟨id, L', hgen, hge, hfree, halpha, hmin⟩ :=
    generateIDAux_spec perm hperm index (index.length + 1) 1 (Nat.le_refl 1)
      ⟨L, s, h1, h2, h3, h4⟩
  exact ⟨id, L', hgen, hge, hfree, halpha, hmin⟩

/-- C6: when some id over the 62-symbol alphabet is free (always the case
for a finite index), `generateID` returns an id absent from the index, of
the smallest length (at least 1) at which a free id exists — every candidate
at every shorter length being occupied. -/
theorem C6_generateID_free_and_minimal (perm : Nat → List Nat)
    (index : List (String × String)) (hperm : PermOK perm) :
    ∃ id L, generateID perm index = some id ∧ lookupA index id = none ∧
      isAlphaID id L ∧ 1 ≤ L ∧
      ∀ M, 1 ≤ M → M < L → ∀ s, isAlphaID s M → (lookupA index s).isSome := by
  obtain ⟨id, L, h1, h2, h3, h4, h5⟩ := generateID_spec perm hperm index
  exact ⟨id, L, h1, h3, h4, h2, h5⟩

/-- Witness for C6: identity candidate order, empty index. -/
theorem C6_generateID_witness :
    ∃ id L, generateID rangePerm [] = some id ∧
      lookupA ([] : List (String × String)) id = none ∧ isAlphaID id L ∧ 1 ≤ L ∧
      ∀ M, 1 ≤ M → M < L → ∀ s, isAlphaID s M →
        (lookupA ([] : List (String × String)) s).isSome :=
  C6_generateID_free_and_minimal rangePerm []
    (fun L => List.Perm.refl (List.range (intPow 62 L)))

/-! ## Snippet store (`store.go`) -/

/-- The three persisted relations plus the content-file directory. -/
structure StoreState where
  index : List (String × String)
  owners : List (String × String)
  passwords : List (String × String)
  files : List (String × String)
  deriving DecidableEq, Repr

/-- `newStore` when no relation files exist yet: everything empty. -/
def emptyState : StoreState := ⟨[], [], [], []⟩

/-- The dedup scan of `createSnippet`: first index entry holding the hash. -/
def findByHash : List (String × String) → String → Option String
  | [], _ => none
  | (id, h₀) :: rest, h => if h₀ = h then some id else findByHash rest h

/-- `createSnippet`: dedup on hash (with the ownership-claim branch), else
allocate a fresh id, record the hash and optional ownership, and write the
content file.  `none` only when the abstract id generator fails (impossible
for a genuine permutation). -/
def createSnippet (hash : String → String) (perm : Nat → List Nat) (s : StoreState)
    (content owner password : String) : Option (String × StoreState) :=
  let h := hash content
  match findByHash s.index h with
  | some id =>
      if owner ≠ "" ∧ ((lookupA s.owners id).getD "" = "" ∨
          ((lookupA s.owners id).getD "" = owner ∧
           (lookupA s.passwords id).getD "" = password)) then
        some (id, ⟨s.index, insertA s.owners id owner,
                   insertA s.passwords id password, s.files⟩)
      else
        some (id, s)
  | none =>
      match generateID perm s.index with
      | none => none
      | some id =>
          some (id,
            ⟨insertA s.index id h,
             if owner ≠ "" then insertA s.owners id owner else s.owners,
             if owner ≠ "" then insertA s.passwords id password else s.passwords,
             insertA s.files id content⟩)

/-- `getSnippet`: index lookup, then content-file read; a read failure is
reported as not-found. -/
def getSnippet (s : StoreState) (id : String) : String × Bool :=
  match lookupA s.index id with
  | none => ("", false)
  | some _ =>
      match lookupA s.files id with
      | none => ("", false)
      | some content => (content, true)

/-- The authorization test of `deleteSnippet`: owned entries require a
non-empty matching username and (when a secret is stored) a matching
password. -/
def deleteAuth (s : StoreState) (id username password : String) : Bool :=
  match lookupA s.owners id with
  | none => true
  | some owner =>
      if username = "" then false
      else if owner ≠ username ∨
          ((lookupA s.passwords id).isSome ∧
           (lookupA s.passwords id).getD "" ≠ password) then
        false
      else true

/-- `deleteSnippet`: remove the id from all three relations when present and
authorized; the content file's removal is asynchronous (fire-and-forget in
the source), so the files relation is untouched by the step itself. -/
def deleteSnippet (s : StoreState) (id username password : String) : Bool × StoreState :=
  match lookupA s.index id with
  | none => (false, s)
  | some _ =>
      if deleteAuth s id username password then
        (true, ⟨eraseA s.index id, eraseA s.owners id, eraseA s.passwords id, s.files⟩)
      else (false, s)

/-- The authorization test of `updateSnippet`: the check is skipped entirely
for an empty username (the source only guards the `username != ""` case). -/
def updateAuth (s : StoreState) (id username password : String) : Bool :=
  if username = "" then true
  else
    match lookupA s.owners id with
    | none => true
    | some owner =>
        if owner ≠ username ∨
            ((lookupA s.passwords id).isSome ∧
             (lookupA s.passwords id).getD "" ≠ password) then
          false
        else true

/-- `updateSnippet`: on a live, authorized id, a hash-identical update is a
no-op success; otherwise the index (and, for a non-empty username, the
ownership relations) are mutated and persisted first, then the content file
is written — `writeOk = false` models a failing content-file write, after
which the source logs and returns `false` with the relations already
mutated. -/
def updateSnippet (hash : String → String) (s : StoreState)
    (id newContent username password : String) (writeOk : Bool) : Bool × StoreState :=
  match lookupA s.index id with
  | none => (false, s)
  | some oldHash =>
      if updateAuth s id username password then
        if oldHash = hash newContent then (true, s)
        else
          let s₁ : StoreState :=
            ⟨insertA s.index id (hash newContent),
             if username ≠ "" then insertA s.owners id username else s.owners,
             if username ≠ "" then insertA s.passwords id password else s.passwords,
             s.files⟩
          if writeOk then
            (true, ⟨s₁.index, s₁.owners, s₁.passwords, insertA s.files id newContent⟩)
          else (false, s₁)
      else (false, s)

/-- Stand-in hash for concrete evaluations (the SHA-256 function is abstract
in the model; any concrete function exercises the branching code). -/
def stubHash : String → String := fun s => s

/-- C1: refuted by the source — an update presenting an EMPTY username on an
owned snippet bypasses the ownership check (`updateSnippet` only guards the
`username != ""` case), succeeds, and mutates the store, while
`deleteSnippet` refuses the same credentials.  Concretely: after
`createSnippet "x" "alice" "pw"` issued id "a", the call
`updateSnippet "a" "y" "" ""` returns `true` and changes the index. -/
theorem C1_empty_username_update_bypasses_owner :
    createSnippet stubHash rangePerm emptyState "x" "alice" "pw"
      = some ("a", ⟨[("a", "x")], [("a", "alice")], [("a", "pw")], [("a", "x")]⟩) ∧
    updateSnippet stubHash ⟨[("a", "x")], [("a", "alice")], [("a", "pw")], [("a", "x")]⟩
        "a" "y" "" "" true
      = (true, ⟨[("a", "y")], [("a", "alice")], [("a", "pw")], [("a", "y")]⟩) ∧
    (deleteSnippet ⟨[("a", "x")], [("a", "alice")], [("a", "pw")], [("a", "x")]⟩
        "a" "" "").1 = false := by
  refine ⟨by decide, by decide, by decide⟩

/-- C2: refuted by the source — when the content-file write fails,
`updateSnippet` returns `false` but has already mutated and persisted the
index: the resulting state records the new hash while the content file still
holds the old bytes (the source merely logs the failed write, whereas
`createSnippet` panics in the same situation). -/
theorem C2_failed_write_leaves_partial_commit :
    updateSnippet stubHash ⟨[("a", "x")], [], [], [("a", "x")]⟩ "a" "y" "" "" false
      = (false, ⟨[("a", "y")], [], [], [("a", "x")]⟩) := by
  decide

/-- C8: a hash-identical authorized update on a live id is a no-op success:
it returns `true` with the state exactly as before the call (in particular
ownership is not transferred even for a non-empty username). -/
theorem C8_noop_update_preserves_state (hash : String → String) (s : StoreState)
    (id newContent username password : String) (writeOk : Bool) (h₀ : String)
    (hlive : lookupA s.index id = some h₀)
    (hauth : updateAuth s id username password = true)
    (hsame : hash newContent = h₀) :
    updateSnippet hash s id newContent username password writeOk = (true, s) := by
  simp [updateSnippet, hlive, hauth, hsame]

/-- Witness for C8 at a concrete owned snippet and matching credentials. -/
theorem C8_noop_update_witness :
    updateSnippet stubHash ⟨[("a", "x")], [("a", "alice")], [("a", "pw")], [("a", "x")]⟩
        "a" "x" "alice" "pw" true
      = (true, ⟨[("a", "x")], [("a", "alice")], [("a", "pw")], [("a", "x")]⟩) :=
  C8_noop_update_preserves_state stubHash
    ⟨[("a", "x")], [("a", "alice")], [("a", "pw")], [("a", "x")]⟩
    "a" "x" "alice" "pw" true "x" (by decide) (by decide) (by decide)

/-- C7: operations on an absent id fail without change (`get`, `update`,
`delete` all report not-found/false); a live unowned id is deletable by any
caller, including an unauthenticated one, the id being erased from all three
relations; and every successful delete removes the id from the index, owners
and passwords relations. -/
theorem C7_delete_semantics (hash : String → String) (s : StoreState)
    (id newContent username password : String) (writeOk : Bool) :
    (lookupA s.index id = none →
      deleteSnippet s id username password = (false, s) ∧
      updateSnippet hash s id newContent username password writeOk = (false, s) ∧
      getSnippet s id = ("", false)) ∧
    (∀ h₀, lookupA s.index id = some h₀ → lookupA s.owners id = none →
      deleteSnippet s id username password
        = (true, ⟨eraseA s.index id, eraseA s.owners id, eraseA s.passwords id, s.files⟩)) ∧
    (∀ s₂, deleteSnippet s id username password = (true, s₂) →
      lookupA s₂.index id = none ∧ lookupA s₂.owners id = none ∧
        lookupA s₂.passwords id = none) := by
  refine ⟨?_, ?_, ?_⟩
  · intro habs
    exact ⟨by simp [deleteSnippet, habs], by simp [updateSnippet, habs],
      by simp [getSnippet, habs]⟩
  · intro h₀ hlive hunowned
    simp [deleteSnippet, hlive, deleteAuth, hunowned]
  · intro s₂ hdel
    cases hlook : lookupA s.index id with
    | none => simp [deleteSnippet, hlook] at hdel
    | some h₀ =>
        by_cases hauth : deleteAuth s id username password
        · simp only [deleteSnippet, hlook, hauth, if_true] at hdel
          obtain ⟨-, rfl⟩ := Prod.mk.injEq .. ▸ hdel
          simp [lookupA_eraseA]
        · simp [deleteSnippet, hlook, hauth] at hdel

/-- Witness for C7 at concrete states: an absent id, a live unowned id, and
the relation lookups after the successful delete. -/
theorem C7_delete_semantics_witness :
    deleteSnippet emptyState "z" "u" "p" = (false, emptyState) ∧
    deleteSnippet ⟨[("a", "x")], [], [], [("a", "x")]⟩ "a" "" ""
      = (true, ⟨eraseA [("a", "x")] "a", eraseA [] "a", eraseA [] "a", [("a", "x")]⟩) ∧
    (lookupA (⟨[], [], [], [("a", "x")]⟩ : StoreState).index "a" = none ∧
     lookupA (⟨[], [], [], [("a", "x")]⟩ : StoreState).owners "a" = none ∧
     lookupA (⟨[], [], [], [("a", "x")]⟩ : StoreState).passwords "a" = none) :=
  ⟨((C7_delete_semantics stubHash emptyState "z" "c" "u" "p" true).1 (by decide)).1,
   (C7_delete_semantics stubHash ⟨[("a", "x")], [], [], [("a", "x")]⟩
      "a" "c" "" "" true).2.1 "x" (by decide) (by decide),
   (C7_delete_semantics stubHash ⟨[("a", "x")], [], [], [("a", "x")]⟩
      "a" "c" "" "" true).2.2 ⟨[], [], [], [("a", "x")]⟩ (by decide)⟩

/-! ## Dedup idempotence and the round trip (C3, C4) -/

theorem findByHash_mem {m : List (String × String)} {h id : String}
    (hf : findByHash m h = some id) : (id, h) ∈ m := by
  induction m with
  | nil => simp [findByHash] at hf
  | cons p rest ih =>
      obtain ⟨id₀, h₀⟩ := p
      by_cases hh : h₀ = h
      · subst hh
        rw [show findByHash ((id₀, h₀) :: rest) h₀
              = if h₀ = h₀ then some id₀ else findByHash rest h₀ from rfl,
          if_pos rfl] at hf
        cases hf
        exact List.mem_cons_self _ _
      · simp only [findByHash, if_neg hh] at hf
        exact List.mem_cons_of_mem _ (ih hf)

theorem findByHash_none {m : List (String × String)} {h : String}
    (hf : findByHash m h = none) : ∀ p ∈ m, p.2 ≠ h := by
  induction m with
  | nil => simp
  | cons p rest ih =>
      obtain ⟨id₀, h₀⟩ := p
      by_cases hh : h₀ = h
      · simp [findByHash, hh] at hf
      · simp only [findByHash, if_neg hh] at hf
        intro q hq
        rcases List.mem_cons.mp hq with rfl | hq'
        · exact hh
        · exact ih hf q hq'

theorem findByHash_append_fresh {m : List (String × String)} {h id : String}
    (hf : findByHash m h = none) :
    findByHash (m ++ [(id, h)]) h = some id := by
  induction m with
  | nil => simp [findByHash]
  | cons p rest ih =>
      obtain ⟨id₀, h₀⟩ := p
      by_cases hh : h₀ = h
      · simp [findByHash, hh] at hf
      · simp only [findByHash, if_neg hh] at hf ⊢
        exact ih hf

/-- Number of index entries carrying a given content hash. -/
def countHash (index : List (String × String)) (h : String) : Nat :=
  index.countP (fun p => p.2 == h)

/-- The state after `n + 1` successive `create(c, "", "")` calls. -/
def createIter (hash : String → String) (perm : Nat → List Nat) (s : StoreState)
    (c : String) : Nat → Option (String × StoreState)
  | 0 => createSnippet hash perm s c "" ""
  | n + 1 =>
      match createIter hash perm s c n with
      | some (_, s₁) => createSnippet hash perm s₁ c "" ""
      | none => none

theorem create_anon_found {hash : String → String} {perm : Nat → List Nat}
    {s : StoreState} {c id₀ : String} (hf : findByHash s.index (hash c) = some id₀) :
    createSnippet hash perm s c "" "" = some (id₀, s) := by
  simp [createSnippet, hf]

/-- C3: anonymous creates of the same content are idempotent — the first
call yields an id and a state that every later call in the sequence returns
unchanged; the index gains at most one entry for `hash c` (exactly one, and
exactly one content-file write, when the hash was fresh; none when it was
already present, the existing id being returned). -/
theorem C3_create_dedup_idempotent (hash : String → String) (perm : Nat → List Nat)
    (s : StoreState) (c : String) (hperm : PermOK perm) :
    ∃ id₁ s₁, createSnippet hash perm s c "" "" = some (id₁, s₁) ∧
      (∀ n, createIter hash perm s c n = some (id₁, s₁)) ∧
      countHash s₁.index (hash c) ≤ countHash s.index (hash c) + 1 ∧
      (∀ id₀, findByHash s.index (hash c) = some id₀ → id₁ = id₀ ∧ s₁ = s) ∧
      (findByHash s.index (hash c) = none →
        s₁.files = insertA s.files id₁ c ∧
        countHash s₁.index (hash c) = countHash s.index (hash c) + 1) := by
  cases hf : findByHash s.index (hash c) with
  | some id₀ =>
      refine ⟨id₀, s, create_anon_found hf, ?_, Nat.le_succ _, ?_, ?_⟩
      · intro n
        induction n with
        | zero => exact create_anon_found hf
        | succ n ih =>
            rw [show createIter hash perm s c (n + 1)
                  = match createIter hash perm s c n with
                    | some (_, s₁) => createSnippet hash perm s₁ c "" ""
                    | none => none
                from rfl, ih]
            exact create_anon_found hf
      · intro id₂ hf₂
        injection hf₂ with h₂
        exact ⟨h₂, rfl⟩
      · intro hf₂
        exact absurd hf₂ (by simp)
  | none =>
      obtain ⟨id₁, L, hgen, -, hfree, -, -⟩ := generateID_spec perm hperm s.index
      have hcreate : createSnippet hash perm s c "" ""
          = some (id₁, ⟨insertA s.index id₁ (hash c), s.owners, s.passwords,
                        insertA s.files id₁ c⟩) := by
        simp [createSnippet, hf, hgen]
      have hidx : insertA s.index id₁ (hash c) = s.index ++ [(id₁, hash c)] :=
        insertA_of_lookupA_none _ _ _ hfree
      have hfind₁ : findByHash (insertA s.index id₁ (hash c)) (hash c) = some id₁ := by
        rw [hidx]
        exact findByHash_append_fresh hf
      have hfix : createSnippet hash perm
          (⟨insertA s.index id₁ (hash c), s.owners, s.passwords,
            insertA s.files id₁ c⟩ : StoreState) c "" ""
          = some (id₁, ⟨insertA s.index id₁ (hash c), s.owners, s.passwords,
                        insertA s.files id₁ c⟩) :=
        create_anon_found hfind₁
      have hcount : countHash (insertA s.index id₁ (hash c)) (hash c)
          = countHash s.index (hash c) + 1 := by
        rw [hidx]
        simp [countHash, List.countP_append]
      refine ⟨id₁, _, hcreate, ?_, by rw [hcount], ?_, fun _ => ⟨rfl, hcount⟩⟩
      · intro n
        induction n with
        | zero => exact hcreate
        | succ n ih =>
            rw [show createIter hash perm s c (n + 1)
                  = match createIter hash perm s c n with
                    | some (_, s₁) => createSnippet hash perm s₁ c "" ""
                    | none => none
                from rfl, ih]
            exact hfix
      · intro id₂ hf₂
        exact absurd hf₂ (by simp)

/-- Witness for C3 with the identity candidate order and an empty store. -/
theorem C3_create_dedup_witness :
    ∃ id₁ s₁, createSnippet stubHash rangePerm emptyState "tomato" "" "" = some (id₁, s₁) ∧
      (∀ n, createIter stubHash rangePerm emptyState "tomato" n = some (id₁, s₁)) ∧
      countHash s₁.index (stubHash "tomato")
        ≤ countHash emptyState.index (stubHash "tomato") + 1 ∧
      (∀ id₀, findByHash emptyState.index (stubHash "tomato") = some id₀ →
        id₁ = id₀ ∧ s₁ = emptyState) ∧
      (findByHash emptyState.index (stubHash "tomato") = none →
        s₁.files = insertA emptyState.files id₁ "tomato" ∧
        countHash s₁.index (stubHash "tomato")
          = countHash emptyState.index (stubHash "tomato") + 1) :=
  C3_create_dedup_idempotent stubHash rangePerm emptyState "tomato"
    (fun L => List.Perm.refl (List.range (intPow 62 L)))

/-- I1-style consistency of a state: every index entry has a content file
whose bytes hash back to the recorded hash. -/
def FileConsistent (hash : String → String) (s : StoreState) : Prop :=
  ∀ p ∈ s.index, ∃ ct, lookupA s.files p.1 = some ct ∧ hash ct = p.2

/-- C4: on a file-consistent state, and assuming distinct contents have
distinct hashes, `getSnippet` directly after `createSnippet` returns the
created content with `found = true`, for any credentials. -/
theorem C4_create_get_roundtrip (hash : String → String) (perm : Nat → List Nat)
    (s : StoreState) (c o p : String) (hinj : Function.Injective hash)
    (hperm : PermOK perm) (hfc : FileConsistent hash s) :
    ∃ id s₁, createSnippet hash perm s c o p = some (id, s₁) ∧
      getSnippet s₁ id = (c, true) := by
  cases hf : findByHash s.index (hash c) with
  | some id₀ =>
      have hmem : (id₀, hash c) ∈ s.index := findByHash_mem hf
      obtain ⟨ct, hctf, hcth⟩ := hfc _ hmem
      have hc : ct = c := hinj hcth
      rw [hc] at hctf
      have hlive : (lookupA s.index id₀).isSome := by
        rw [lookupA_isSome_iff_mem_keys]
        exact List.mem_map.mpr ⟨(id₀, hash c), hmem, rfl⟩
      obtain ⟨h₀, hh₀⟩ := Option.isSome_iff_exists.mp hlive
      by_cases hclaim : o ≠ "" ∧ ((lookupA s.owners id₀).getD "" = "" ∨
          ((lookupA s.owners id₀).getD "" = o ∧ (lookupA s.passwords id₀).getD "" = p))
      · refine ⟨id₀, ⟨s.index, insertA s.owners id₀ o, insertA s.passwords id₀ p, s.files⟩,
          ?_, ?_⟩
        · simp only [createSnippet, hf]
          rw [if_pos hclaim]
        · simp [getSnippet, hh₀, hctf]
      · refine ⟨id₀, s, ?_, ?_⟩
        · simp only [createSnippet, hf]
          rw [if_neg hclaim]
        · simp [getSnippet, hh₀, hctf]
  | none =>
      obtain ⟨id₁, L, hgen, -, hfree, -, -⟩ := generateID_spec perm hperm s.index
      refine ⟨id₁,
        ⟨insertA s.index id₁ (hash c),
         if o ≠ "" then insertA s.owners id₁ o else s.owners,
         if o ≠ "" then insertA s.passwords id₁ p else s.passwords,
         insertA s.files id₁ c⟩, ?_, ?_⟩
      · simp only [createSnippet, hf, hgen]
      · simp [getSnippet, lookupA_insertA_self]

/-- Witness for C4: identity hash, identity candidate order, empty store. -/
theorem C4_create_get_witness :
    ∃ id s₁, createSnippet stubHash rangePerm emptyState "tomato" "alice" "pw"
        = some (id, s₁) ∧ getSnippet s₁ id = ("tomato", true) :=
  C4_create_get_roundtrip stubHash rangePerm emptyState "tomato" "alice" "pw"
    (fun a b hab => hab) (fun L => List.Perm.refl (List.range (intPow 62 L)))
    (fun q hq => absurd hq (by simp [emptyState]))

/-! ## Reachability and ownership invariants (C9, C10) -/

/-- States reachable from the empty store through the three mutating
operations (any arguments, any candidate order, any write outcome). -/
inductive Reach (hash : String → String) : StoreState → Prop where
  | empty : Reach hash emptyState
  | create (s : StoreState) (perm : Nat → List Nat) (c o p id : String) (s₂ : StoreState) :
      Reach hash s → createSnippet hash perm s c o p = some (id, s₂) → Reach hash s₂
  | update (s : StoreState) (id c u p : String) (w b : Bool) (s₂ : StoreState) :
      Reach hash s → updateSnippet hash s id c u p w = (b, s₂) → Reach hash s₂
  | delete (s : StoreState) (id u p : String) (b : Bool) (s₂ : StoreState) :
      Reach hash s → deleteSnippet s id u p = (b, s₂) → Reach hash s₂

theorem createSnippet_cases {hash : String → String} {perm : Nat → List Nat}
    {s : StoreState} {c o₀ p₀ id : String} {s₂ : StoreState}
    (h : createSnippet hash perm s c o₀ p₀ = some (id, s₂)) :
    (findByHash s.index (hash c) = some id ∧
      ((o₀ ≠ "" ∧ ((lookupA s.owners id).getD "" = "" ∨
          ((lookupA s.owners id).getD "" = o₀ ∧ (lookupA s.passwords id).getD "" = p₀)) ∧
        s₂ = ⟨s.index, insertA s.owners id o₀, insertA s.passwords id p₀, s.files⟩) ∨
       s₂ = s)) ∨
    (findByHash s.index (hash c) = none ∧ generateID perm s.index = some id ∧
      s₂ = ⟨insertA s.index id (hash c),
            if o₀ ≠ "" then insertA s.owners id o₀ else s.owners,
            if o₀ ≠ "" then insertA s.passwords id p₀ else s.passwords,
            insertA s.files id c⟩) := by
  cases hf : findByHash s.index (hash c) with
  | some id₀ =>
      by_cases hclaim : o₀ ≠ "" ∧ ((lookupA s.owners id₀).getD "" = "" ∨
          ((lookupA s.owners id₀).getD "" = o₀ ∧ (lookupA s.passwords id₀).getD "" = p₀))
      · simp only [createSnippet, hf] at h
        rw [if_pos hclaim] at h
        injection h with h
        injection h with hid hst
        subst hid
        subst hst
        exact Or.inl ⟨rfl, Or.inl ⟨hclaim.1, hclaim.2, rfl⟩⟩
      · simp only [createSnippet, hf] at h
        rw [if_neg hclaim] at h
        injection h with h
        injection h with hid hst
        subst hid
        subst hst
        exact Or.inl ⟨rfl, Or.inr rfl⟩
  | none =>
      cases hg : generateID perm s.index with
      | none => simp [createSnippet, hf, hg] at h
      | some id₁ =>
          simp only [createSnippet, hf, hg] at h
          injection h with h
          injection h with hid hst
          subst hid
          subst hst
          exact Or.inr ⟨rfl, rfl, rfl⟩

theorem updateSnippet_cases {hash : String → String} {s : StoreState}
    {id c u p : String} {w b : Bool} {s₂ : StoreState}
    (h : updateSnippet hash s id c u p w = (b, s₂)) :
    (b = false ∧ s₂ = s ∧ (lookupA s.index id = none ∨ updateAuth s id u p = false)) ∨
    (b = true ∧ s₂ = s ∧ ∃ oldHash, lookupA s.index id = some oldHash ∧
      oldHash = hash c) ∨
    (∃ oldHash, lookupA s.index id = some oldHash ∧ updateAuth s id u p = true ∧
      oldHash ≠ hash c ∧
      s₂.index = insertA s.index id (hash c) ∧
      s₂.owners = (if u ≠ "" then insertA s.owners id u else s.owners) ∧
      s₂.passwords = (if u ≠ "" then insertA s.passwords id p else s.passwords) ∧
      b = w) := by
  cases hlook : lookupA s.index id with
  | none =>
      simp only [updateSnippet, hlook] at h
      injection h with hb hst
      exact Or.inl ⟨hb.symm, hst.symm, Or.inl rfl⟩
  | some oldHash =>
      cases hauth : updateAuth s id u p with
      | false =>
          simp only [updateSnippet, hlook, hauth, Bool.false_eq_true, if_false] at h
          injection h with hb hst
          exact Or.inl ⟨hb.symm, hst.symm, Or.inr rfl⟩
      | true =>
          by_cases hsame : oldHash = hash c
          · simp only [updateSnippet, hlook, hauth, if_true, if_pos hsame] at h
            injection h with hb hst
            exact Or.inr (Or.inl ⟨hb.symm, hst.symm, oldHash, rfl, hsame⟩)
          · cases w with
            | true =>
                simp only [updateSnippet, hlook, hauth, if_true, if_neg hsame] at h
                injection h with hb hst
                subst hst
                exact Or.inr (Or.inr ⟨oldHash, rfl, rfl, hsame, rfl, rfl, rfl,
                  hb.symm⟩)
            | false =>
                simp only [updateSnippet, hlook, hauth, if_true, if_neg hsame,
                  Bool.false_eq_true, if_false] at h
                injection h with hb hst
                subst hst
                exact Or.inr (Or.inr ⟨oldHash, rfl, rfl, hsame, rfl, rfl, rfl,
                  hb.symm⟩)

theorem deleteSnippet_cases {s : StoreState} {id u p : String} {b : Bool}
    {s₂ : StoreState} (h : deleteSnippet s id u p = (b, s₂)) :
    (b = false ∧ s₂ = s) ∨
    (b = true ∧ (∃ h₀, lookupA s.index id = some h₀) ∧
      deleteAuth s id u p = true ∧
      s₂ = ⟨eraseA s.index id, eraseA s.owners id, eraseA s.passwords id, s.files⟩) := by
  cases hlook : lookupA s.index id with
  | none =>
      simp only [deleteSnippet, hlook] at h
      injection h with hb hst
      exact Or.inl ⟨hb.symm, hst.symm⟩
  | some h₀ =>
      cases hauth : deleteAuth s id u p with
      | false =>
          simp only [deleteSnippet, hlook, hauth, Bool.false_eq_true, if_false] at h
          injection h with hb hst
          exact Or.inl ⟨hb.symm, hst.symm⟩
      | true =>
          simp only [deleteSnippet, hlook, hauth, if_true] at h
          injection h with hb hst
          exact Or.inr ⟨hb.symm, ⟨h₀, rfl⟩, rfl, hst.symm⟩

theorem updateAuth_owner_eq {s : StoreState} {id u p o : String} (hu : u ≠ "")
    (ho : lookupA s.owners id = some o) (ha : updateAuth s id u p = true) : o = u := by
  simp only [updateAuth, if_neg hu, ho] at ha
  by_cases hcond : o ≠ u ∨ ((lookupA s.passwords id).isSome ∧
      (lookupA s.passwords id).getD "" ≠ p)
  · rw [if_pos hcond] at ha
    exact absurd ha (by simp)
  · push_neg at hcond
    exact hcond.1

/-- Reachable-state invariant: every id with an owner entry is live. -/
theorem reach_owners_sub_index {hash : String → String} {s : StoreState}
    (hr : Reach hash s) :
    ∀ q, (lookupA s.owners q).isSome = true → (lookupA s.index q).isSome = true := by
  induction hr with
  | empty => intro q hq; simp [emptyState, lookupA] at hq
  | create s perm c o₀ p₀ id s₂ hr heq ih =>
      intro q hq
      rcases createSnippet_cases heq with ⟨hf, ⟨ho, hcond, rfl⟩ | rfl⟩ | ⟨hf, hg, rfl⟩
      · show (lookupA s.index q).isSome = true
        by_cases hqid : q = id
        · subst hqid
          rw [lookupA_isSome_iff_mem_keys]
          exact List.mem_map.mpr ⟨(q, hash c), findByHash_mem hf, rfl⟩
        · apply ih q
          rw [show (⟨s.index, insertA s.owners id o₀, insertA s.passwords id p₀,
                s.files⟩ : StoreState).owners = insertA s.owners id o₀ from rfl,
            lookupA_insertA_ne _ _ _ _ hqid] at hq
          exact hq
      · exact ih q hq
      · by_cases hqid : q = id
        · subst hqid
          show (lookupA (insertA s.index q (hash c)) q).isSome = true
          rw [lookupA_insertA_self]
          rfl
        · show (lookupA (insertA s.index id (hash c)) q).isSome = true
          rw [lookupA_insertA_ne _ _ _ _ hqid]
          apply ih q
          by_cases ho : o₀ ≠ ""
          · rw [show (⟨insertA s.index id (hash c),
                  if o₀ ≠ "" then insertA s.owners id o₀ else s.owners,
                  if o₀ ≠ "" then insertA s.passwords id p₀ else s.passwords,
                  insertA s.files id c⟩ : StoreState).owners
                = if o₀ ≠ "" then insertA s.owners id o₀ else s.owners from rfl,
              if_pos ho, lookupA_insertA_ne _ _ _ _ hqid] at hq
            exact hq
          · rw [show (⟨insertA s.index id (hash c),
                  if o₀ ≠ "" then insertA s.owners id o₀ else s.owners,
                  if o₀ ≠ "" then insertA s.passwords id p₀ else s.passwords,
                  insertA s.files id c⟩ : StoreState).owners
                = if o₀ ≠ "" then insertA s.owners id o₀ else s.owners from rfl,
              if_neg ho] at hq
            exact hq
  | update s id c u p w b s₂ hr heq ih =>
      intro q hq
      rcases updateSnippet_cases heq with ⟨-, rfl, -⟩ | ⟨-, rfl, -⟩ |
        ⟨oldHash, hlook, hauth, hne, hidx, hown, hpass, -⟩
      · exact ih q hq
      · exact ih q hq
      · rw [hidx]
        by_cases hqid : q = id
        · subst hqid
          rw [lookupA_insertA_self]
          rfl
        · rw [lookupA_insertA_ne _ _ _ _ hqid]
          apply ih q
          rw [hown] at hq
          by_cases hu : u ≠ ""
          · rw [if_pos hu, lookupA_insertA_ne _ _ _ _ hqid] at hq
            exact hq
          · rw [if_neg hu] at hq
            exact hq
  | delete s id u p b s₂ hr heq ih =>
      intro q hq
      rcases deleteSnippet_cases heq with ⟨-, rfl⟩ | ⟨-, -, -, rfl⟩
      · exact ih q hq
      · by_cases hqid : q = id
        · subst hqid
          rw [show (⟨eraseA s.index q, eraseA s.owners q, eraseA s.passwords q,
                s.files⟩ : StoreState).owners = eraseA s.owners q from rfl,
            lookupA_eraseA, if_pos rfl] at hq
          simp at hq
        · rw [show (⟨eraseA s.index id, eraseA s.owners id, eraseA s.passwords id,
                s.files⟩ : StoreState).owners = eraseA s.owners id from rfl,
            lookupA_eraseA, if_neg hqid] at hq
          show (lookupA (eraseA s.index id) q).isSome = true
          rw [lookupA_eraseA, if_neg hqid]
          exact ih q hq

/-- C10: from the empty store, every reachable state records an owner entry
for an id exactly when it records a password entry for that id — the three
operations always mutate the two relations in tandem. -/
theorem C10_owners_iff_passwords (hash : String → String) (s : StoreState)
    (hr : Reach hash s) (q : String) :
    (lookupA s.owners q).isSome = (lookupA s.passwords q).isSome := by
  induction hr with
  | empty => rfl
  | create s perm c o₀ p₀ id s₂ hr heq ih =>
      rcases createSnippet_cases heq with ⟨hf, ⟨ho, hcond, rfl⟩ | rfl⟩ | ⟨hf, hg, rfl⟩
      · show (lookupA (insertA s.owners id o₀) q).isSome
            = (lookupA (insertA s.passwords id p₀) q).isSome
        by_cases hqid : q = id
        · subst hqid
          rw [lookupA_insertA_self, lookupA_insertA_self]
          rfl
        · rw [lookupA_insertA_ne _ _ _ _ hqid, lookupA_insertA_ne _ _ _ _ hqid]
          exact ih
      · exact ih
      · show (lookupA (if o₀ ≠ "" then insertA s.owners id o₀ else s.owners) q).isSome
            = (lookupA (if o₀ ≠ "" then insertA s.passwords id p₀ else s.passwords) q).isSome
        by_cases ho : o₀ ≠ ""
        · rw [if_pos ho, if_pos ho]
          by_cases hqid : q = id
          · subst hqid
            rw [lookupA_insertA_self, lookupA_insertA_self]
            rfl
          · rw [lookupA_insertA_ne _ _ _ _ hqid, lookupA_insertA_ne _ _ _ _ hqid]
            exact ih
        · rw [if_neg ho, if_neg ho]
          exact ih
  | update s id c u p w b s₂ hr heq ih =>
      rcases updateSnippet_cases heq with ⟨-, rfl, -⟩ | ⟨-, rfl, -⟩ |
        ⟨oldHash, hlook, hauth, hne, hidx, hown, hpass, -⟩
      · exact ih
      · exact ih
      · rw [hown, hpass]
        by_cases hu : u ≠ ""
        · rw [if_pos hu, if_pos hu]
          by_cases hqid : q = id
          · subst hqid
            rw [lookupA_insertA_self, lookupA_insertA_self]
            rfl
          · rw [lookupA_insertA_ne _ _ _ _ hqid, lookupA_insertA_ne _ _ _ _ hqid]
            exact ih
        · rw [if_neg hu, if_neg hu]
          exact ih
  | delete s id u p b s₂ hr heq ih =>
      rcases deleteSnippet_cases heq with ⟨-, rfl⟩ | ⟨-, -, -, rfl⟩
      · exact ih
      · show (lookupA (eraseA s.owners id) q).isSome
            = (lookupA (eraseA s.passwords id) q).isSome
        rw [lookupA_eraseA, lookupA_eraseA]
        by_cases hqid : q = id
        · rw [if_pos hqid, if_pos hqid]
        · rw [if_neg hqid, if_neg hqid]
          exact ih

/-- Witness for C10 at the empty (reachable) state. -/
theorem C10_owners_iff_passwords_witness :
    (lookupA emptyState.owners "a").isSome = (lookupA emptyState.passwords "a").isSome :=
  C10_owners_iff_passwords stubHash emptyState Reach.empty "a"

/-- C9: over any reachable state, an update preserves every recorded owner
value exactly (an authorized non-empty username necessarily equals the
stored owner); a delete preserves every recorded owner value of an id that
is still live afterwards; a create preserves every recorded owner value
except in the ownership-claim branch of the dedup path, which overwrites an
empty stored owner with the non-empty claiming owner.  In particular an
owner entry is never cleared while its id stays live. -/
theorem C9_ownership_persistence (hash : String → String) (s : StoreState)
    (hr : Reach hash s) :
    (∀ id c u p w b s₂ q o, updateSnippet hash s id c u p w = (b, s₂) →
       lookupA s.owners q = some o → lookupA s₂.owners q = some o) ∧
    (∀ id u p b s₂ q o, deleteSnippet s id u p = (b, s₂) →
       lookupA s.owners q = some o → lookupA s₂.index q ≠ none →
       lookupA s₂.owners q = some o) ∧
    (∀ perm c o₀ p₀ id s₂ q o, createSnippet hash perm s c o₀ p₀ = some (id, s₂) →
       lookupA s.owners q = some o →
       ∃ o₂, lookupA s₂.owners q = some o₂ ∧
         (o₂ = o ∨ (o = "" ∧ o₂ = o₀ ∧ o₀ ≠ ""))) := by
  refine ⟨?_, ?_, ?_⟩
  · intro id c u p w b s₂ q o heq hq
    rcases updateSnippet_cases heq with ⟨-, rfl, -⟩ | ⟨-, rfl, -⟩ |
      ⟨oldHash, hlook, hauth, hne, hidx, hown, hpass, -⟩
    · exact hq
    · exact hq
    · rw [hown]
      by_cases hu : u ≠ ""
      · rw [if_pos hu]
        by_cases hqid : q = id
        · subst hqid
          rw [lookupA_insertA_self, updateAuth_owner_eq hu hq hauth]
        · rw [lookupA_insertA_ne _ _ _ _ hqid]
          exact hq
      · rw [if_neg hu]
        exact hq
  · intro id u p b s₂ q o heq hq hlive
    rcases deleteSnippet_cases heq with ⟨-, rfl⟩ | ⟨-, -, -, rfl⟩
    · exact hq
    · have hqid : q ≠ id := by
        intro he
        subst he
        rw [show (⟨eraseA s.index q, eraseA s.owners q, eraseA s.passwords q,
              s.files⟩ : StoreState).index = eraseA s.index q from rfl,
          lookupA_eraseA, if_pos rfl] at hlive
        exact hlive rfl
      show lookupA (eraseA s.owners id) q = some o
      rw [lookupA_eraseA, if_neg hqid]
      exact hq
  · intro perm c o₀ p₀ id s₂ q o heq hq
    rcases createSnippet_cases heq with ⟨hf, ⟨ho, hcond, rfl⟩ | rfl⟩ | ⟨hf, hg, rfl⟩
    · by_cases hqid : q = id
      · subst hqid
        refine ⟨o₀, by rw [show (⟨s.index, insertA s.owners q o₀, insertA s.passwords q p₀,
            s.files⟩ : StoreState).owners = insertA s.owners q o₀ from rfl,
          lookupA_insertA_self], ?_⟩
        rw [hq] at hcond
        simp only [Option.getD_some] at hcond
        rcases hcond with hc | hc
        · exact Or.inr ⟨hc, rfl, ho⟩
        · exact Or.inl hc.1.symm
      · refine ⟨o, ?_, Or.inl rfl⟩
        rw [show (⟨s.index, insertA s.owners id o₀, insertA s.passwords id p₀,
              s.files⟩ : StoreState).owners = insertA s.owners id o₀ from rfl,
          lookupA_insertA_ne _ _ _ _ hqid]
        exact hq
    · exact ⟨o, hq, Or.inl rfl⟩
    · have hfree : lookupA s.index id = none := generateID_fresh hg
      have hqid : q ≠ id := by
        intro he
        subst he
        have hsome := reach_owners_sub_index hr q (by simp [hq])
        rw [hfree] at hsome
        simp at hsome
      refine ⟨o, ?_, Or.inl rfl⟩
      show lookupA (if o₀ ≠ "" then insertA s.owners id o₀ else s.owners) q = some o
      by_cases ho : o₀ ≠ ""
      · rw [if_pos ho, lookupA_insertA_ne _ _ _ _ hqid]
        exact hq
      · rw [if_neg ho]
        exact hq

/-- Witness for C9: a reachable owned snippet, updated by its owner — the
owner entry survives with the same value. -/
theorem C9_ownership_witness :
    updateSnippet stubHash
        ⟨[("a", "x")], [("a", "alice")], [("a", "pw")], [("a", "x")]⟩
        "a" "y" "alice" "pw" true
      = (true, ⟨[("a", "y")], [("a", "alice")], [("a", "pw")], [("a", "y")]⟩) ∧
    lookupA (⟨[("a", "y")], [("a", "alice")], [("a", "pw")],
        [("a", "y")]⟩ : StoreState).owners "a" = some "alice" := by
  have hreach : Reach stubHash
      ⟨[("a", "x")], [("a", "alice")], [("a", "pw")], [("a", "x")]⟩ :=
    Reach.create emptyState rangePerm "x" "alice" "pw" "a" _ Reach.empty (by decide)
  exact ⟨by decide,
    (C9_ownership_persistence stubHash _ hreach).1 "a" "y" "alice" "pw" true true
      ⟨[("a", "y")], [("a", "alice")], [("a", "pw")], [("a", "y")]⟩ "a" "alice"
      (by decide) (by decide)⟩

end PB
